import Mathlib

/-!
Verification development for a line-oriented secret-pattern scanner
(`print_arguments/main.py`).  The Python module scans files for private-key
byte markers and an auxiliary case-insensitive `hippo` pattern, suppressing
flagged lines via comment-style-aware `pragma: allowlist secret` regexes
(inline and next-line modes).

We shallowly embed the program: Python's regular expressions (for the small
fragment the program builds: literals, character classes, `.`, `*`,
alternation, the `^` anchor, and `$` end-of-line semantics) are embedded as a
regex AST with a Brzozowski-derivative matcher; file bytes are `List Nat`
(each < 256) decoded via a UTF-8 decoder with replacement; the scan loop is a
structural recursion that mirrors `main`'s loop line by line.
-/

/-- Regex AST covering the constructs the program's patterns use.
`cls p` is a character class (one character satisfying `p`);
`fail` is the empty language (used by the derivative simplifier). -/
inductive RE : Type where
  | fail : RE
  | eps : RE
  | cls : (Char → Bool) → RE
  | seq : RE → RE → RE
  | alt : RE → RE → RE
  | star : RE → RE

/-- Does the regex accept the empty string? -/
def RE.nullable : RE → Bool
  | .fail => false
  | .eps => true
  | .cls _ => false
  | .seq a b => a.nullable && b.nullable
  | .alt a b => a.nullable || b.nullable
  | .star _ => true

/-- Smart sequencing constructor: prunes `fail` and drops `eps`. -/
def RE.seq2 (a b : RE) : RE :=
  match a, b with
  | .fail, _ => .fail
  | _, .fail => .fail
  | .eps, b => b
  | a, .eps => a
  | a, b => .seq a b

/-- Smart alternation constructor: prunes `fail`. -/
def RE.alt2 (a b : RE) : RE :=
  match a, b with
  | .fail, b => b
  | a, .fail => a
  | a, b => .alt a b

/-- Brzozowski derivative of a regex by one character. -/
def RE.deriv : RE → Char → RE
  | .fail, _ => .fail
  | .eps, _ => .fail
  | .cls p, c => if p c then .eps else .fail
  | .seq a b, c =>
      if a.nullable then RE.alt2 (RE.seq2 (a.deriv c) b) (b.deriv c)
      else RE.seq2 (a.deriv c) b
  | .alt a b, c => RE.alt2 (a.deriv c) (b.deriv c)
  | .star a, c => RE.seq2 (a.deriv c) (.star a)

/-- Full-string match via iterated derivatives. -/
def RE.rmatch (r : RE) (s : List Char) : Bool :=
  (s.foldl RE.deriv r).nullable

/-- Language semantics of the regex AST. -/
inductive Lang : RE → List Char → Prop where
  | eps : Lang .eps []
  | cls {p : Char → Bool} {c : Char} : p c = true → Lang (.cls p) [c]
  | seq {a b : RE} {u v : List Char} :
      Lang a u → Lang b v → Lang (.seq a b) (u ++ v)
  | altL {a b : RE} {s : List Char} : Lang a s → Lang (.alt a b) s
  | altR {a b : RE} {s : List Char} : Lang b s → Lang (.alt a b) s
  | starNil {a : RE} : Lang (.star a) []
  | starCons {a : RE} {u v : List Char} :
      Lang a u → Lang (.star a) v → Lang (.star a) (u ++ v)

theorem lang_fail {s : List Char} : ¬ Lang .fail s := by
  intro h; cases h

theorem lang_fail_iff {s : List Char} : Lang .fail s ↔ False :=
  iff_false_intro lang_fail

theorem lang_eps_iff {s : List Char} : Lang .eps s ↔ s = [] := by
  constructor
  · intro h; cases h; rfl
  · rintro rfl; exact Lang.eps

theorem lang_cls_iff {p : Char → Bool} {s : List Char} :
    Lang (.cls p) s ↔ ∃ c, p c = true ∧ s = [c] := by
  constructor
  · intro h; cases h with
    | cls hp => exact ⟨_, hp, rfl⟩
  · rintro ⟨c, hp, rfl⟩; exact Lang.cls hp

theorem lang_seq_iff {a b : RE} {s : List Char} :
    Lang (.seq a b) s ↔ ∃ u v, s = u ++ v ∧ Lang a u ∧ Lang b v := by
  constructor
  · intro h; cases h with
    | seq hu hv => exact ⟨_, _, rfl, hu, hv⟩
  · rintro ⟨u, v, rfl, hu, hv⟩; exact Lang.seq hu hv

theorem lang_alt_iff {a b : RE} {s : List Char} :
    Lang (.alt a b) s ↔ Lang a s ∨ Lang b s := by
  constructor
  · intro h; cases h with
    | altL h => exact Or.inl h
    | altR h => exact Or.inr h
  · rintro (h | h)
    · exact Lang.altL h
    · exact Lang.altR h

/-- Inversion for `star`: a non-empty member splits into a first chunk and a rest. -/
theorem lang_star_inv {a : RE} {s : List Char} (h : Lang (.star a) s) :
    s = [] ∨ ∃ u v, s = u ++ v ∧ u ≠ [] ∧ Lang a u ∧ Lang (.star a) v := by
  generalize hr : RE.star a = r at h
  induction h with
  | eps => exact absurd hr (by simp)
  | cls _ => exact absurd hr (by simp)
  | seq _ _ => exact absurd hr (by simp)
  | altL _ => exact absurd hr (by simp)
  | altR _ => exact absurd hr (by simp)
  | starNil => exact Or.inl rfl
  | @starCons a' u v hu hv ih1 ih2 =>
      cases hr
      by_cases hu0 : u = []
      · subst hu0
        simpa using ih2 rfl
      · exact Or.inr ⟨u, v, rfl, hu0, hu, hv⟩

theorem lang_seq_eps_l {b : RE} {s : List Char} :
    Lang (.seq .eps b) s ↔ Lang b s := by
  rw [lang_seq_iff]
  constructor
  · rintro ⟨u, v, rfl, hu, hv⟩
    rw [lang_eps_iff] at hu
    subst hu
    simpa using hv
  · intro h
    exact ⟨[], s, rfl, Lang.eps, h⟩

theorem lang_seq_eps_r {a : RE} {s : List Char} :
    Lang (.seq a .eps) s ↔ Lang a s := by
  rw [lang_seq_iff]
  constructor
  · rintro ⟨u, v, rfl, hu, hv⟩
    rw [lang_eps_iff] at hv
    subst hv
    simpa using hu
  · intro h
    exact ⟨s, [], by simp, h, Lang.eps⟩

theorem lang_seq_fail_l {b : RE} {s : List Char} :
    Lang (.seq .fail b) s ↔ False := by
  rw [lang_seq_iff]
  constructor
  · rintro ⟨u, v, rfl, hu, hv⟩
    exact lang_fail hu
  · exact False.elim

theorem lang_seq_fail_r {a : RE} {s : List Char} :
    Lang (.seq a .fail) s ↔ False := by
  rw [lang_seq_iff]
  constructor
  · rintro ⟨u, v, rfl, hu, hv⟩
    exact lang_fail hv
  · exact False.elim

theorem lang_alt_fail_l {b : RE} {s : List Char} :
    Lang (.alt .fail b) s ↔ Lang b s := by
  rw [lang_alt_iff, lang_fail_iff]
  simp

theorem lang_alt_fail_r {a : RE} {s : List Char} :
    Lang (.alt a .fail) s ↔ Lang a s := by
  rw [lang_alt_iff, lang_fail_iff]
  simp

theorem lang_seq2 {a b : RE} {s : List Char} :
    Lang (RE.seq2 a b) s ↔ Lang (.seq a b) s := by
  cases a <;> cases b <;>
    simp only [RE.seq2, lang_fail_iff, lang_seq_fail_l, lang_seq_fail_r,
      lang_seq_eps_l, lang_seq_eps_r]

theorem lang_alt2 {a b : RE} {s : List Char} :
    Lang (RE.alt2 a b) s ↔ Lang (.alt a b) s := by
  cases a <;> cases b <;>
    simp only [RE.alt2, lang_fail_iff, lang_alt_fail_l, lang_alt_fail_r]

theorem nullable_iff {r : RE} : r.nullable = true ↔ Lang r [] := by
  induction r with
  | fail => simp [RE.nullable]; exact lang_fail
  | eps => simp [RE.nullable]; exact Lang.eps
  | cls p => simp [RE.nullable, lang_cls_iff]
  | seq a b iha ihb =>
      simp only [RE.nullable, Bool.and_eq_true, iha, ihb]
      constructor
      · rintro ⟨ha, hb⟩
        exact (List.nil_append []) ▸ Lang.seq ha hb
      · intro h
        rcases lang_seq_iff.mp h with ⟨u, v, huv, hu, hv⟩
        rcases List.append_eq_nil.mp huv.symm with ⟨rfl, rfl⟩
        exact ⟨hu, hv⟩
  | alt a b iha ihb =>
      simp only [RE.nullable, Bool.or_eq_true, iha, ihb, lang_alt_iff]
  | star a ih =>
      simp [RE.nullable]; exact Lang.starNil

theorem deriv_iff {r : RE} {c : Char} {s : List Char} :
    Lang (r.deriv c) s ↔ Lang r (c :: s) := by
  induction r generalizing s with
  | fail => simp [RE.deriv]; constructor <;> (intro h; exact absurd h lang_fail)
  | eps =>
      simp only [RE.deriv]
      constructor
      · intro h; exact absurd h lang_fail
      · intro h
        rw [lang_eps_iff] at h
        exact absurd h (List.cons_ne_nil c s)
  | cls p =>
      by_cases hp : p c = true
      · have step : RE.deriv (.cls p) c = .eps := by
          simp [RE.deriv, hp]
        rw [step, lang_eps_iff, lang_cls_iff]
        constructor
        · rintro rfl; exact ⟨c, hp, rfl⟩
        · rintro ⟨d, hd, he⟩
          obtain ⟨h1, h2⟩ := List.cons_eq_cons.mp he
          exact h2
      · have step : RE.deriv (.cls p) c = .fail := by
          simp [RE.deriv, hp]
        rw [step, lang_fail_iff, lang_cls_iff]
        constructor
        · exact False.elim
        · rintro ⟨d, hd, he⟩
          obtain ⟨h1, h2⟩ := List.cons_eq_cons.mp he
          subst h1
          exact hp hd
  | seq a b iha ihb =>
      by_cases hn : a.nullable = true
      · have step : RE.deriv (.seq a b) c
            = RE.alt2 (RE.seq2 (a.deriv c) b) (b.deriv c) := by
          simp [RE.deriv, hn]
        rw [step, lang_alt2, lang_alt_iff, lang_seq2, lang_seq_iff, lang_seq_iff]
        constructor
        · rintro (⟨u, v, rfl, hu, hv⟩ | hb)
          · exact ⟨c :: u, v, rfl, iha.mp hu, hv⟩
          · exact ⟨[], c :: s, rfl, nullable_iff.mp hn, ihb.mp hb⟩
        · rintro ⟨u, v, huv, hu, hv⟩
          cases u with
          | nil =>
              right
              rw [List.nil_append] at huv
              subst huv
              exact ihb.mpr hv
          | cons x u' =>
              left
              rw [List.cons_append] at huv
              obtain ⟨h1, h2⟩ := List.cons_eq_cons.mp huv
              subst h1
              subst h2
              exact ⟨u', v, rfl, iha.mpr hu, hv⟩
      · have step : RE.deriv (.seq a b) c = RE.seq2 (a.deriv c) b := by
          simp [RE.deriv, hn]
        rw [step, lang_seq2, lang_seq_iff, lang_seq_iff]
        constructor
        · rintro ⟨u, v, rfl, hu, hv⟩
          exact ⟨c :: u, v, rfl, iha.mp hu, hv⟩
        · rintro ⟨u, v, huv, hu, hv⟩
          cases u with
          | nil =>
              rw [List.nil_append] at huv
              exact absurd (nullable_iff.mpr hu) hn
          | cons x u' =>
              rw [List.cons_append] at huv
              obtain ⟨h1, h2⟩ := List.cons_eq_cons.mp huv
              subst h1
              subst h2
              exact ⟨u', v, rfl, iha.mpr hu, hv⟩
  | alt a b iha ihb =>
      simp only [RE.deriv, lang_alt2, lang_alt_iff, iha, ihb]
  | star a ih =>
      simp only [RE.deriv, lang_seq2, lang_seq_iff]
      constructor
      · rintro ⟨u, v, rfl, hu, hv⟩
        rw [← List.cons_append]
        exact Lang.starCons (ih.mp hu) hv
      · intro h
        rcases lang_star_inv h with h0 | ⟨u, v, huv, hne, hu, hv⟩
        · exact absurd h0 (List.cons_ne_nil c s)
        · cases u with
          | nil => exact absurd rfl hne
          | cons x u' =>
              rw [List.cons_append] at huv
              obtain ⟨h1, h2⟩ := List.cons_eq_cons.mp huv
              subst h1
              subst h2
              exact ⟨u', v, rfl, ih.mpr hu, hv⟩

theorem rmatch_iff {r : RE} {s : List Char} : r.rmatch s = true ↔ Lang r s := by
  induction s generalizing r with
  | nil => simpa [RE.rmatch] using nullable_iff
  | cons c s ih =>
      have : RE.rmatch r (c :: s) = RE.rmatch (r.deriv c) s := rfl
      rw [this, ih, deriv_iff]

/-! ### Derived regex constructors used by the program's patterns -/

/-- Single literal character. -/
def RE.chr (c : Char) : RE := .cls (fun d => d == c)

/-- Literal string (sequence of literal characters). -/
def RE.lit (w : String) : RE :=
  w.data.foldr (fun c r => .seq (RE.chr c) r) .eps

/-- Concatenation of a list of regexes (mirrors string concatenation
in the Python pattern `format` call). -/
def seqList (l : List RE) : RE := l.foldr RE.seq .eps

/-- Horizontal whitespace class `[ \t]`. -/
def hwsCls : RE := .cls (fun c => c == ' ' || c == '\t')

/-- The class `[ -]` (space or hyphen). -/
def spHyCls : RE := .cls (fun c => c == ' ' || c == '-')

/-- Python `.` with `DOTALL` off: any character except newline. -/
def dotCls : RE := .cls (fun c => !(c == '\n'))

/-- Python end-of-string anchor `$` (no `MULTILINE`): matches at the very end
of the string or just before a trailing `'\n'`.  Appended to a pattern whose
match must reach the end, this is `(\n|ε)`. -/
def dollarRE : RE := .alt (RE.chr '\n') .eps

theorem lang_chr_iff {c : Char} {s : List Char} :
    Lang (RE.chr c) s ↔ s = [c] := by
  rw [RE.chr, lang_cls_iff]
  constructor
  · rintro ⟨d, hd, rfl⟩
    rw [beq_iff_eq] at hd
    rw [hd]
  · rintro rfl
    exact ⟨c, by simp, rfl⟩

theorem lang_lit_aux {cs : List Char} {s : List Char} :
    Lang (cs.foldr (fun c r => .seq (RE.chr c) r) .eps) s ↔ s = cs := by
  induction cs generalizing s with
  | nil => simpa using lang_eps_iff
  | cons c cs ih =>
      simp only [List.foldr_cons, lang_seq_iff, lang_chr_iff, ih]
      constructor
      · rintro ⟨u, v, rfl, rfl, rfl⟩
        rfl
      · rintro rfl
        exact ⟨[c], cs, rfl, rfl, rfl⟩

theorem lang_lit_iff {w : String} {s : List Char} :
    Lang (RE.lit w) s ↔ s = w.data := by
  rw [RE.lit]; exact lang_lit_aux

theorem lang_seqList_cons {r : RE} {l : List RE} {s : List Char} :
    Lang (seqList (r :: l)) s ↔ ∃ u v, s = u ++ v ∧ Lang r u ∧ Lang (seqList l) v := by
  rw [seqList, List.foldr_cons, lang_seq_iff]; rfl

theorem lang_seqList_nil {s : List Char} : Lang (seqList []) s ↔ s = [] := by
  rw [seqList, List.foldr_nil]; exact lang_eps_iff

/-- A word occurs as a contiguous segment of a string. -/
def OccursIn (w s : List Char) : Prop := ∃ u v, s = u ++ w ++ v

theorem occursIn_append_left {w s t : List Char} (h : OccursIn w s) :
    OccursIn w (t ++ s) := by
  rcases h with ⟨u, v, rfl⟩
  exact ⟨t ++ u, v, by simp⟩

theorem occursIn_append_right {w s t : List Char} (h : OccursIn w s) :
    OccursIn w (s ++ t) := by
  rcases h with ⟨u, v, rfl⟩
  exact ⟨u, v ++ t, by simp⟩

/-- If a literal for `w` appears among the concatenated factors, every
matched string contains `w` as a contiguous segment. -/
theorem occursIn_of_lang_seqList {w : String} {l : List RE} {s : List Char}
    (hmem : RE.lit w ∈ l) (h : Lang (seqList l) s) : OccursIn w.data s := by
  induction l generalizing s with
  | nil => exact absurd hmem (List.not_mem_nil _)
  | cons r l ih =>
      rcases lang_seqList_cons.mp h with ⟨u, v, rfl, hu, hv⟩
      rcases List.mem_cons.mp hmem with rfl | hmem'
      · rw [lang_lit_iff] at hu
        subst hu
        exact ⟨[], v, by simp⟩
      · exact occursIn_append_left (ih hmem' hv)

/-- Compiled pattern: the regex body plus whether the pattern carries the
leading `^` anchor (Python `re.search` semantics). -/
structure Pat where
  anch : Bool
  body : RE

/-- `re.search` on a whole line: an anchored pattern must match from the
start of the string; an unanchored one may match from any position.  The
trailing `$` of the program's patterns is encoded inside `body` (as
`dollarRE`), so a match always extends to the end of the string. -/
def Pat.search (p : Pat) (s : List Char) : Bool :=
  if p.anch then p.body.rmatch s else (s.tails).any p.body.rmatch

theorem search_anch {p : Pat} (h : p.anch = true) {s : List Char} :
    (p.search s = true) ↔ Lang p.body s := by
  rw [Pat.search, h, if_pos rfl, rmatch_iff]

theorem search_unanch {p : Pat} (h : p.anch = false) {s : List Char} :
    (p.search s = true) ↔ ∃ t, t <:+ s ∧ Lang p.body t := by
  rw [Pat.search, h]
  simp only [Bool.false_eq_true, if_false, List.any_eq_true]
  constructor
  · rintro ⟨t, ht, hm⟩
    exact ⟨t, (List.mem_tails t s).mp ht, rmatch_iff.mp hm⟩
  · rintro ⟨t, ht, hm⟩
    exact ⟨t, (List.mem_tails t s).mpr ht, rmatch_iff.mpr hm⟩

/-! ### Bytes, UTF-8 decoding with replacement, and byte-level helpers -/

/-- Is `w` a prefix of `s`? -/
def leadsOf [BEq α] : List α → List α → Bool
  | [], _ => true
  | _ :: _, [] => false
  | a :: as, b :: bs => a == b && leadsOf as bs

/-- Does `w` occur as a contiguous segment of `s`?  (Python `w in s` for
`bytes`, and the search of a literal pattern for text.) -/
def containsSeq [BEq α] (w s : List α) : Bool := (s.tails).any (leadsOf w)

/-- ASCII bytes of a string (all source literals involved are ASCII). -/
def asciiBytes (s : String) : List Nat := s.data.map Char.toNat

/-- UTF-8 continuation byte `0x80–0xBF`. -/
def contB (b : Nat) : Bool := 128 ≤ b && b ≤ 191

/-- Admissible first continuation byte after a three-byte lead
(excludes overlong encodings and surrogates, as CPython's decoder does). -/
def cont3ok (lead c : Nat) : Bool :=
  if lead == 224 then 160 ≤ c && c ≤ 191
  else if lead == 237 then 128 ≤ c && c ≤ 159
  else contB c

/-- Admissible first continuation byte after a four-byte lead. -/
def cont4ok (lead c : Nat) : Bool :=
  if lead == 240 then 144 ≤ c && c ≤ 191
  else if lead == 244 then 128 ≤ c && c ≤ 143
  else contB c

/-- U+FFFD REPLACEMENT CHARACTER. -/
def replChar : Char := Char.ofNat 0xFFFD

/-- Fuel-indexed UTF-8 decoding step (structural recursion on the fuel so the
kernel can evaluate it); `utf8DecodeReplace` instantiates the fuel with the
list length, which every recursive call strictly decreases in bytes. -/
def utf8DecodeAux : Nat → List Nat → List Char
  | 0, _ => []
  | _ + 1, [] => []
  | fuel + 1, b :: rest =>
    if b ≤ 127 then Char.ofNat b :: utf8DecodeAux fuel rest
    else if 194 ≤ b && b ≤ 223 then
      match rest with
      | c1 :: rest2 =>
          if contB c1 then
            Char.ofNat ((b - 192) * 64 + (c1 - 128)) :: utf8DecodeAux fuel rest2
          else replChar :: utf8DecodeAux fuel (c1 :: rest2)
      | [] => [replChar]
    else if 224 ≤ b && b ≤ 239 then
      match rest with
      | c1 :: rest2 =>
          if cont3ok b c1 then
            match rest2 with
            | c2 :: rest3 =>
                if contB c2 then
                  Char.ofNat ((b - 224) * 4096 + (c1 - 128) * 64 + (c2 - 128))
                    :: utf8DecodeAux fuel rest3
                else replChar :: utf8DecodeAux fuel (c2 :: rest3)
            | [] => [replChar]
          else replChar :: utf8DecodeAux fuel (c1 :: rest2)
      | [] => [replChar]
    else if 240 ≤ b && b ≤ 244 then
      match rest with
      | c1 :: rest2 =>
          if cont4ok b c1 then
            match rest2 with
            | c2 :: rest3 =>
                if contB c2 then
                  match rest3 with
                  | c3 :: rest4 =>
                      if contB c3 then
                        Char.ofNat
                          ((b - 240) * 262144 + (c1 - 128) * 4096
                            + (c2 - 128) * 64 + (c3 - 128))
                          :: utf8DecodeAux fuel rest4
                      else replChar :: utf8DecodeAux fuel (c3 :: rest4)
                  | [] => [replChar]
                else replChar :: utf8DecodeAux fuel (c2 :: rest3)
            | [] => [replChar]
          else replChar :: utf8DecodeAux fuel (c1 :: rest2)
      | [] => [replChar]
    else replChar :: utf8DecodeAux fuel rest

/-- `line.decode(errors="replace")`: UTF-8 decoding where invalid subparts are
replaced by U+FFFD instead of raising (CPython's `replace` handler).  Total by
construction: decoding never fails. -/
def utf8DecodeReplace (l : List Nat) : List Char := utf8DecodeAux l.length l

theorem utf8DecodeAux_ascii {l : List Nat} (h : ∀ b ∈ l, b ≤ 127) :
    ∀ fuel, l.length ≤ fuel → utf8DecodeAux fuel l = l.map Char.ofNat := by
  induction l with
  | nil =>
      intro fuel _
      cases fuel <;> rfl
  | cons b rest ih =>
      intro fuel hf
      have hb : b ≤ 127 := h b (List.mem_cons_self b rest)
      have hrest : ∀ d ∈ rest, d ≤ 127 := fun d hd => h d (List.mem_cons_of_mem b hd)
      cases fuel with
      | zero => exact absurd hf (by simp)
      | succ f =>
          have hf' : rest.length ≤ f := by
            simpa [Nat.succ_le_succ_iff] using hf
          rw [utf8DecodeAux.eq_def]
          simp only [if_pos hb, ih hrest f hf', List.map_cons]

/-- ASCII byte lines decode to the corresponding characters. -/
theorem utf8_ascii {l : List Nat} (h : ∀ b ∈ l, b ≤ 127) :
    utf8DecodeReplace l = l.map Char.ofNat :=
  utf8DecodeAux_ascii h l.length (Nat.le_refl _)

/-! ### Embedding of `print_arguments/main.py` -/

/-- `BLACKLIST`: the fixed private-key byte markers (all ASCII `bytes`
literals in the source). -/
def BLACKLIST : List (List Nat) :=
  [ asciiBytes "BEGIN RSA PRIVATE KEY"
  , asciiBytes "BEGIN DSA PRIVATE KEY"
  , asciiBytes "BEGIN EC PRIVATE KEY"
  , asciiBytes "BEGIN OPENSSH PRIVATE KEY"
  , asciiBytes "BEGIN PRIVATE KEY"
  , asciiBytes "PuTTY-User-Key-File-2"
  , asciiBytes "BEGIN SSH2 ENCRYPTED PRIVATE KEY"
  , asciiBytes "BEGIN PGP PRIVATE KEY BLOCK"
  , asciiBytes "BEGIN ENCRYPTED PRIVATE KEY"
  , asciiBytes "BEGIN OpenVPN Static key V1"
  ]

/-- `any(pattern in line for pattern in BLACKLIST)`: raw byte-substring test,
independent of decoding. -/
def blacklistHit (line : List Nat) : Bool :=
  BLACKLIST.any (fun m => containsSeq m line)

/-- ASCII lower-casing (what `re.IGNORECASE` amounts to for the ASCII-letter
pattern `hippo`). -/
def lowerAscii (c : Char) : Char :=
  if 65 ≤ c.toNat && c.toNat ≤ 90 then Char.ofNat (c.toNat + 32) else c

/-- `HIPPO_REGEX.search(line_str)` for `HIPPO_REGEX =
re.compile(r'hippo', re.IGNORECASE)`: a case-insensitive search for the
literal `hippo`, i.e. a case-folded substring test. -/
def hippoSearch (s : List Char) : Bool :=
  containsSeq ("hippo".data) (s.map lowerAscii)

/-- `_get_comment_tuples`: comment styles for supported languages, as
(start, end) regex fragments.  The Python entries are regex-fragment
strings, translated term by term:
`'#'`; `'//'`; `r'/\*'` (escaped literal `/*`); `'--'`;
`r'<!--[# \t]*?'` (literal `<!--`, then lazily any of `#`, space, tab);
ends `''` (empty), `r' *\*/'` (spaces, literal `*/`), `' *?-->'` (spaces
lazily, literal `-->`).  Lazy and greedy quantifiers denote the same
language, so both become `star`. -/
def _get_comment_tuples : List (RE × RE) :=
  [ (RE.lit "#", .eps)
  , (RE.lit "//", .eps)
  , (RE.lit "/*", .seq (.star (RE.chr ' ')) (RE.lit "*/"))
  , (RE.lit "--", .eps)
  , (.seq (RE.lit "<!--") (.star (.cls (fun c => c == '#' || c == ' ' || c == '\t'))),
     .seq (.star (RE.chr ' ')) (RE.lit "-->"))
  ]

/-- `_get_file_to_index_dict`: file extensions to comment-style indices. -/
def _get_file_to_index_dict : List (String × Nat) :=
  [ ("yaml", 0), ("py", 0), ("sql", 3), ("go", 1), ("js", 1), ("java", 2), ("xml", 4) ]

/-- Index (from the front) of the last occurrence of `c` in the list
(Python `str.rfind`, `none` for "not found"). -/
def lastIdx (c : Char) : List Char → Option Nat
  | [] => none
  | x :: xs =>
      match lastIdx c xs with
      | some j => some (j + 1)
      | none => if x == c then some 0 else none

/-- The extension part (with its leading dot) of `os.path.splitext` for POSIX
paths: split at the last `'.'` provided it lies after the last `'/'` and at
least one character of the final component before that dot is not a dot
(leading dots of a basename never start an extension, so `.py` has none). -/
def splitextExt (p : List Char) : List Char :=
  match lastIdx '.' p with
  | none => []
  | some d =>
      let fi : Nat :=
        match lastIdx '/' p with
        | none => 0
        | some j => j + 1
      if fi ≤ d then
        if ((p.drop fi).take (d - fi)).any (fun c => !(c == '.')) then p.drop d
        else []
      else []

/-- `_, ext = os.path.splitext(filename); ext = ext[1:]`. -/
def extOf (filename : String) : String :=
  String.mk ((splitextExt filename.data).drop 1)

/-- `get_allowlist_regexes`: compiles
`'{}[ \t]*{} *pragma: ?{}{}[ -]secret.*?{}[ \t]*$'.format(
    r'^' if nextline else '', start,
    r'allowlist' if nextline else r'(allow|white)list',
    r'[ -]nextline' if nextline else '', end)`.
Concatenation of the format pieces becomes `seqList`, the `'^'` slot becomes
the `anch` flag, and the trailing `$` becomes `dollarRE`. -/
def get_allowlist_regexes (comment_tuple : RE × RE) (nextline : Bool) : Pat :=
  { anch := nextline
  , body := seqList
      [ .star hwsCls
      , comment_tuple.1
      , .star (RE.chr ' ')
      , RE.lit "pragma:"
      , .alt (RE.chr ' ') .eps
      , if nextline then RE.lit "allowlist"
        else .seq (.alt (RE.lit "allow") (RE.lit "white")) (RE.lit "list")
      , if nextline then .seq spHyCls (RE.lit "nextline") else .eps
      , spHyCls
      , RE.lit "secret"
      , .star dotCls
      , comment_tuple.2
      , .star hwsCls
      , dollarRE ] }

/-- `_get_allowlist_regexes_for_file`: resolve the file's comment styles via
the extension map (single mapped style if the extension is known, every style
otherwise) and build the inline and nextline pattern lists.  The Python
generator yields the inline list first, then the nextline list; we return the
pair directly. -/
def _get_allowlist_regexes_for_file (filename : String) : List Pat × List Pat :=
  let comment_tuples := _get_comment_tuples
  let tuples :=
    match _get_file_to_index_dict.lookup (extOf filename) with
    | some i => [comment_tuples.getD i (.fail, .fail)]
    | none => comment_tuples
  ( tuples.map (fun t => get_allowlist_regexes t false)
  , tuples.map (fun t => get_allowlist_regexes t true) )

/-- `any(regex.search(line_str) for regex in regexes)`. -/
def anyMatch (ps : List Pat) (s : List Char) : Bool :=
  ps.any (fun p => p.search s)

/-- Python `str.strip()` on the decoded line (ASCII whitespace; the decoded
texts this program prints only carry ASCII whitespace at the ends). -/
def pyIsSpace (c : Char) : Bool :=
  c == ' ' || c == '\t' || c == '\n' || c == '\r'
    || c == Char.ofNat 11 || c == Char.ofNat 12

def pyStrip (s : List Char) : List Char :=
  ((s.dropWhile pyIsSpace).reverse.dropWhile pyIsSpace).reverse

/-- Output events of the scan: the per-file flagged header (printed, and the
filename appended to `flagged_files`, at the same moment) and one event per
flagged line (1-based number, stripped decoded text). -/
inductive Ev : Type where
  | header : String → Ev
  | line : Nat → List Char → Ev
deriving DecidableEq

/-- The per-file line loop of `main`, mirroring its control flow: the
`skip_next_line` test comes first, then the nextline-pragma check (setting
`skip_next_line`), then the inline-pragma check, then the signature check
(blacklist on raw bytes, `HIPPO_REGEX` on decoded text); the header event is
emitted on the first flagged line only (`file_flagged`). -/
def scanLoop (il nl : List Pat) (fname : String) :
    Nat → Bool → Bool → List (List Nat) → List Ev × Bool
  | _, _, flagged, [] => ([], flagged)
  | i, skip, flagged, b :: rest =>
      let s := utf8DecodeReplace b
      if skip then scanLoop il nl fname (i + 1) false flagged rest
      else if anyMatch nl s then scanLoop il nl fname (i + 1) true flagged rest
      else if anyMatch il s then scanLoop il nl fname (i + 1) false flagged rest
      else if blacklistHit b || hippoSearch s then
        let r := scanLoop il nl fname (i + 1) false true rest
        ((if flagged then [] else [Ev.header fname]) ++ Ev.line i (pyStrip s) :: r.1,
         r.2)
      else scanLoop il nl fname (i + 1) false flagged rest

/-- Scan one file: resolve the regexes once, then walk the lines starting at
line number 1 in `Reading` state.  Returns the output events and the final
`file_flagged` boolean. -/
def scanFile (fname : String) (lines : List (List Nat)) : List Ev × Bool :=
  let rs := _get_allowlist_regexes_for_file fname
  scanLoop rs.1 rs.2 fname 1 false false lines

/-- Project a scan event to its flagged-line record, if it is one. -/
def evRec : Ev → Option (Nat × List Char)
  | .line n t => some (n, t)
  | .header _ => none

/-- The flagged (line number, stripped text) records of one file's scan. -/
def scanFlags (fname : String) (lines : List (List Nat)) : List (Nat × List Char) :=
  (scanFile fname lines).1.filterMap evRec

/-- The driver loop of `main` over the argument files (a file is its name
plus its `readlines()` result): concatenates the per-file output and
accumulates `flagged_files` in order. -/
def mainRun (files : List (String × List (List Nat))) : List Ev × List String :=
  match files with
  | [] => ([], [])
  | (fn, ls) :: rest =>
      let r := scanFile fn ls
      let m := mainRun rest
      (r.1 ++ m.1, (if r.2 then [fn] else []) ++ m.2)

/-- `return 1 if flagged_files else 0`. -/
def mainExit (files : List (String × List (List Nat))) : Nat :=
  if (mainRun files).2.isEmpty then 0 else 1

/-! ### Scan-state characterization -/

/-- One step of the `skip_next_line` state on processing a line: the flag is
set exactly when the line is reached in non-skipping state and matches a
nextline pragma (otherwise it is cleared or stays off). -/
def stepSkip (nl : List Pat) (sk : Bool) (b : List Nat) : Bool :=
  !sk && anyMatch nl (utf8DecodeReplace b)

/-- The `skip_next_line` state on reaching (0-based) line `k`, starting from
state `sk` before line 0. -/
def skipSt (nl : List Pat) : Bool → List (List Nat) → Nat → Bool
  | sk, _, 0 => sk
  | _, [], _ + 1 => false
  | sk, b :: rest, k + 1 => skipSt nl (stepSkip nl sk b) rest k

/-- Unfolding: processing a line in skipping state clears the state. -/
theorem scanLoop_cons_skip {il nl : List Pat} {fname : String} {i : Nat}
    {flagged : Bool} {b : List Nat} {rest : List (List Nat)} :
    scanLoop il nl fname i true flagged (b :: rest)
      = scanLoop il nl fname (i + 1) false flagged rest := rfl

/-- Unfolding: a nextline-pragma line sets the skipping state and is not
signature-checked. -/
theorem scanLoop_cons_nl {il nl : List Pat} {fname : String} {i : Nat}
    {flagged : Bool} {b : List Nat} {rest : List (List Nat)}
    (hnl : anyMatch nl (utf8DecodeReplace b) = true) :
    scanLoop il nl fname i false flagged (b :: rest)
      = scanLoop il nl fname (i + 1) true flagged rest := by
  simp [scanLoop, hnl]

/-- Unfolding: an inline-pragma line is exempt. -/
theorem scanLoop_cons_il {il nl : List Pat} {fname : String} {i : Nat}
    {flagged : Bool} {b : List Nat} {rest : List (List Nat)}
    (hnl : anyMatch nl (utf8DecodeReplace b) = false)
    (hil : anyMatch il (utf8DecodeReplace b) = true) :
    scanLoop il nl fname i false flagged (b :: rest)
      = scanLoop il nl fname (i + 1) false flagged rest := by
  simp [scanLoop, hnl, hil]

/-- Unfolding: a surviving line that hits a signature is flagged (header
first if the file was not yet flagged). -/
theorem scanLoop_cons_sig {il nl : List Pat} {fname : String} {i : Nat}
    {flagged : Bool} {b : List Nat} {rest : List (List Nat)}
    (hnl : anyMatch nl (utf8DecodeReplace b) = false)
    (hil : anyMatch il (utf8DecodeReplace b) = false)
    (hsig : (blacklistHit b || hippoSearch (utf8DecodeReplace b)) = true) :
    scanLoop il nl fname i false flagged (b :: rest)
      = ((if flagged then [] else [Ev.header fname])
           ++ Ev.line i (pyStrip (utf8DecodeReplace b))
              :: (scanLoop il nl fname (i + 1) false true rest).1,
         (scanLoop il nl fname (i + 1) false true rest).2) := by
  simp [scanLoop, hnl, hil, hsig]

/-- Unfolding: a clean line is passed over. -/
theorem scanLoop_cons_none {il nl : List Pat} {fname : String} {i : Nat}
    {flagged : Bool} {b : List Nat} {rest : List (List Nat)}
    (hnl : anyMatch nl (utf8DecodeReplace b) = false)
    (hil : anyMatch il (utf8DecodeReplace b) = false)
    (hsig : (blacklistHit b || hippoSearch (utf8DecodeReplace b)) = false) :
    scanLoop il nl fname i false flagged (b :: rest)
      = scanLoop il nl fname (i + 1) false flagged rest := by
  simp [scanLoop, hnl, hil, hsig]

/-- Sufficiency: a line reached in non-skipping state that matches no pragma
and hits a signature is reported (with 1-based number `i + k` and stripped
decoded text). -/
theorem scanLoop_flags_mem {il nl : List Pat} {fname : String} :
    ∀ (lines : List (List Nat)) (i : Nat) (sk flagged : Bool) (k : Nat)
      (b : List Nat),
      lines[k]? = some b →
      skipSt nl sk lines k = false →
      anyMatch nl (utf8DecodeReplace b) = false →
      anyMatch il (utf8DecodeReplace b) = false →
      (blacklistHit b || hippoSearch (utf8DecodeReplace b)) = true →
      Ev.line (i + k) (pyStrip (utf8DecodeReplace b))
        ∈ (scanLoop il nl fname i sk flagged lines).1 := by
  intro lines
  induction lines with
  | nil =>
      intro i sk flagged k b hget
      simp at hget
  | cons b0 rest ih =>
      intro i sk flagged k b hget hskip hnl hil hsig
      cases k with
      | zero =>
          rw [List.getElem?_cons_zero] at hget
          injection hget with hb
          subst hb
          have hsk : sk = false := hskip
          subst hsk
          rw [scanLoop_cons_sig hnl hil hsig]
          exact List.mem_append_right _ (List.mem_cons_self _ _)
      | succ k =>
          rw [List.getElem?_cons_succ] at hget
          have hskip' : skipSt nl (stepSkip nl sk b0) rest k = false := hskip
          have harith : i + (k + 1) = (i + 1) + k := by omega
          rw [harith]
          cases sk with
          | true =>
              have hstep : stepSkip nl true b0 = false := by simp [stepSkip]
              rw [hstep] at hskip'
              rw [scanLoop_cons_skip]
              exact ih (i + 1) false flagged k b hget hskip' hnl hil hsig
          | false =>
              have hstep : stepSkip nl false b0 = anyMatch nl (utf8DecodeReplace b0) := by
                simp [stepSkip]
              rw [hstep] at hskip'
              cases hnl0 : anyMatch nl (utf8DecodeReplace b0) with
              | true =>
                  rw [hnl0] at hskip'
                  rw [scanLoop_cons_nl hnl0]
                  exact ih (i + 1) true flagged k b hget hskip' hnl hil hsig
              | false =>
                  rw [hnl0] at hskip'
                  cases hil0 : anyMatch il (utf8DecodeReplace b0) with
                  | true =>
                      rw [scanLoop_cons_il hnl0 hil0]
                      exact ih (i + 1) false flagged k b hget hskip' hnl hil hsig
                  | false =>
                      cases hsig0 : (blacklistHit b0 || hippoSearch (utf8DecodeReplace b0)) with
                      | true =>
                          rw [scanLoop_cons_sig hnl0 hil0 hsig0]
                          exact List.mem_append_right _ (List.mem_cons_of_mem _
                            (ih (i + 1) false true k b hget hskip' hnl hil hsig))
                      | false =>
                          rw [scanLoop_cons_none hnl0 hil0 hsig0]
                          exact ih (i + 1) false flagged k b hget hskip' hnl hil hsig

/-- Necessity: every reported line event comes from an actual line, reached
in non-skipping state, matching no pragma, and hitting a signature. -/
theorem scanLoop_flags_src {il nl : List Pat} {fname : String} :
    ∀ (lines : List (List Nat)) (i : Nat) (sk flagged : Bool) (n : Nat)
      (t : List Char),
      Ev.line n t ∈ (scanLoop il nl fname i sk flagged lines).1 →
      ∃ k b, lines[k]? = some b ∧ n = i + k ∧
        skipSt nl sk lines k = false ∧
        anyMatch nl (utf8DecodeReplace b) = false ∧
        anyMatch il (utf8DecodeReplace b) = false ∧
        (blacklistHit b || hippoSearch (utf8DecodeReplace b)) = true ∧
        t = pyStrip (utf8DecodeReplace b) := by
  intro lines
  induction lines with
  | nil =>
      intro i sk flagged n t hmem
      simp [scanLoop] at hmem
  | cons b0 rest ih =>
      intro i sk flagged n t hmem
      have push : ∀ i' sk' flagged',
          Ev.line n t ∈ (scanLoop il nl fname i' sk' flagged' rest).1 →
          skipSt nl (stepSkip nl sk b0) rest = skipSt nl sk' rest →
          i' = i + 1 →
          ∃ k b, (b0 :: rest)[k]? = some b ∧ n = i + k ∧
            skipSt nl sk (b0 :: rest) k = false ∧
            anyMatch nl (utf8DecodeReplace b) = false ∧
            anyMatch il (utf8DecodeReplace b) = false ∧
            (blacklistHit b || hippoSearch (utf8DecodeReplace b)) = true ∧
            t = pyStrip (utf8DecodeReplace b) := by
        intro i' sk' flagged' hm hsteq hieq
        subst hieq
        rcases ih (i + 1) sk' flagged' n t hm with
          ⟨k, b, hget, hn, hskip, hnl, hil, hsig, ht⟩
        refine ⟨k + 1, b, ?_, by omega, ?_, hnl, hil, hsig, ht⟩
        · rw [List.getElem?_cons_succ]; exact hget
        · show skipSt nl (stepSkip nl sk b0) rest k = false
          rw [hsteq]; exact hskip
      cases sk with
      | true =>
          rw [scanLoop_cons_skip] at hmem
          refine push (i + 1) false flagged hmem ?_ rfl
          simp [stepSkip]
      | false =>
          cases hnl0 : anyMatch nl (utf8DecodeReplace b0) with
          | true =>
              rw [scanLoop_cons_nl hnl0] at hmem
              refine push (i + 1) true flagged hmem ?_ rfl
              simp [stepSkip, hnl0]
          | false =>
              cases hil0 : anyMatch il (utf8DecodeReplace b0) with
              | true =>
                  rw [scanLoop_cons_il hnl0 hil0] at hmem
                  refine push (i + 1) false flagged hmem ?_ rfl
                  simp [stepSkip, hnl0]
              | false =>
                  cases hsig0 : (blacklistHit b0 || hippoSearch (utf8DecodeReplace b0)) with
                  | true =>
                      rw [scanLoop_cons_sig hnl0 hil0 hsig0] at hmem
                      rcases List.mem_append.mp hmem with hhd | htl
                      · exfalso
                        cases flagged <;> simp at hhd
                      · rcases List.mem_cons.mp htl with heq | hr
                        · injection heq with hn ht
                          exact ⟨0, b0, by simp, by omega,
                            rfl, hnl0, hil0, hsig0, ht⟩
                        · refine push (i + 1) false true hr ?_ rfl
                          simp [stepSkip, hnl0]
                  | false =>
                      rw [scanLoop_cons_none hnl0 hil0 hsig0] at hmem
                      refine push (i + 1) false flagged hmem ?_ rfl
                      simp [stepSkip, hnl0]

/-- Is an event the per-file header? -/
def isHeader : Ev → Bool
  | .header _ => true
  | .line _ _ => false

/-- Line number of a line event. -/
def evNum : Ev → Option Nat
  | .line n _ => some n
  | .header _ => none

/-- Once `file_flagged` is set, the loop emits no further header events. -/
theorem scanLoop_no_header_flagged {il nl : List Pat} {fname : String} :
    ∀ (lines : List (List Nat)) (i : Nat) (sk : Bool),
      ∀ e ∈ (scanLoop il nl fname i sk true lines).1, isHeader e = false := by
  intro lines
  induction lines with
  | nil =>
      intro i sk e he
      simp [scanLoop] at he
  | cons b0 rest ih =>
      intro i sk e he
      cases sk with
      | true =>
          rw [scanLoop_cons_skip] at he
          exact ih (i + 1) false e he
      | false =>
          cases hnl0 : anyMatch nl (utf8DecodeReplace b0) with
          | true =>
              rw [scanLoop_cons_nl hnl0] at he
              exact ih (i + 1) true e he
          | false =>
              cases hil0 : anyMatch il (utf8DecodeReplace b0) with
              | true =>
                  rw [scanLoop_cons_il hnl0 hil0] at he
                  exact ih (i + 1) false e he
              | false =>
                  cases hsig0 : (blacklistHit b0 || hippoSearch (utf8DecodeReplace b0)) with
                  | true =>
                      rw [scanLoop_cons_sig hnl0 hil0 hsig0] at he
                      rcases List.mem_append.mp he with hhd | htl
                      · simp at hhd
                      · rcases List.mem_cons.mp htl with rfl | hr
                        · rfl
                        · exact ih (i + 1) false e hr
                  | false =>
                      rw [scanLoop_cons_none hnl0 hil0 hsig0] at he
                      exact ih (i + 1) false e he

/-- The loop prints the per-file header at most once. -/
theorem scanLoop_header_le_one {il nl : List Pat} {fname : String} :
    ∀ (lines : List (List Nat)) (i : Nat) (sk flagged : Bool),
      ((scanLoop il nl fname i sk flagged lines).1.countP isHeader)
        ≤ (if flagged then 0 else 1) := by
  intro lines
  induction lines with
  | nil =>
      intro i sk flagged
      have : ((scanLoop il nl fname i sk flagged []).1.countP isHeader) = 0 := by
        simp [scanLoop]
      rw [this]
      cases flagged <;> simp
  | cons b0 rest ih =>
      intro i sk flagged
      cases sk with
      | true =>
          rw [scanLoop_cons_skip]; exact ih (i + 1) false flagged
      | false =>
          cases hnl0 : anyMatch nl (utf8DecodeReplace b0) with
          | true =>
              rw [scanLoop_cons_nl hnl0]; exact ih (i + 1) true flagged
          | false =>
              cases hil0 : anyMatch il (utf8DecodeReplace b0) with
              | true =>
                  rw [scanLoop_cons_il hnl0 hil0]; exact ih (i + 1) false flagged
              | false =>
                  cases hsig0 : (blacklistHit b0 || hippoSearch (utf8DecodeReplace b0)) with
                  | true =>
                      rw [scanLoop_cons_sig hnl0 hil0 hsig0]
                      have hz : ((scanLoop il nl fname (i + 1) false true rest).1.countP
                          isHeader) = 0 := by
                        rw [List.countP_eq_zero]
                        intro e he
                        simpa using scanLoop_no_header_flagged rest (i + 1) false e he
                      cases flagged with
                      | true =>
                          simp [List.countP_append, List.countP_cons, isHeader, hz]
                      | false =>
                          simp [List.countP_append, List.countP_cons, isHeader, hz]
                  | false =>
                      rw [scanLoop_cons_none hnl0 hil0 hsig0]
                      exact ih (i + 1) false flagged

/-- The reported line numbers are strictly increasing and bounded below by
the starting line number. -/
theorem scanLoop_nums {il nl : List Pat} {fname : String} :
    ∀ (lines : List (List Nat)) (i : Nat) (sk flagged : Bool),
      ((scanLoop il nl fname i sk flagged lines).1.filterMap evNum).Pairwise (· < ·)
      ∧ ∀ n ∈ (scanLoop il nl fname i sk flagged lines).1.filterMap evNum, i ≤ n := by
  intro lines
  induction lines with
  | nil =>
      intro i sk flagged
      constructor
      · simp [scanLoop]
      · intro n hn; simp [scanLoop] at hn
  | cons b0 rest ih =>
      intro i sk flagged
      have weaken : ∀ sk' flagged',
          ((scanLoop il nl fname (i + 1) sk' flagged' rest).1.filterMap evNum).Pairwise (· < ·)
          ∧ ∀ n ∈ (scanLoop il nl fname (i + 1) sk' flagged' rest).1.filterMap evNum, i ≤ n := by
        intro sk' flagged'
        rcases ih (i + 1) sk' flagged' with ⟨hp, hb⟩
        exact ⟨hp, fun n hn => Nat.le_of_succ_le (hb n hn)⟩
      cases sk with
      | true => rw [scanLoop_cons_skip]; exact weaken false flagged
      | false =>
          cases hnl0 : anyMatch nl (utf8DecodeReplace b0) with
          | true => rw [scanLoop_cons_nl hnl0]; exact weaken true flagged
          | false =>
              cases hil0 : anyMatch il (utf8DecodeReplace b0) with
              | true => rw [scanLoop_cons_il hnl0 hil0]; exact weaken false flagged
              | false =>
                  cases hsig0 : (blacklistHit b0 || hippoSearch (utf8DecodeReplace b0)) with
                  | true =>
                      rw [scanLoop_cons_sig hnl0 hil0 hsig0]
                      rcases ih (i + 1) false true with ⟨hp, hb⟩
                      have hsh : ((if flagged then [] else [Ev.header fname])
                            ++ Ev.line i (pyStrip (utf8DecodeReplace b0))
                               :: (scanLoop il nl fname (i + 1) false true rest).1).filterMap evNum
                          = i :: (scanLoop il nl fname (i + 1) false true rest).1.filterMap evNum := by
                        cases flagged <;> simp [evNum]
                      rw [hsh]
                      constructor
                      · rw [List.pairwise_cons]
                        exact ⟨fun n hn => Nat.lt_of_succ_le (hb n hn), hp⟩
                      · intro n hn
                        rcases List.mem_cons.mp hn with rfl | hn'
                        · exact Nat.le_refl _
                        · exact Nat.le_of_succ_le (hb n hn')
                  | false =>
                      rw [scanLoop_cons_none hnl0 hil0 hsig0]
                      exact weaken false flagged

/-- The final `file_flagged` boolean is set exactly when the initial one was
or some line event was emitted. -/
theorem scanLoop_snd_eq {il nl : List Pat} {fname : String} :
    ∀ (lines : List (List Nat)) (i : Nat) (sk flagged : Bool),
      (scanLoop il nl fname i sk flagged lines).2
        = (flagged || !((scanLoop il nl fname i sk flagged lines).1.filterMap evRec).isEmpty) := by
  intro lines
  induction lines with
  | nil =>
      intro i sk flagged
      simp [scanLoop]
  | cons b0 rest ih =>
      intro i sk flagged
      cases sk with
      | true => rw [scanLoop_cons_skip]; exact ih (i + 1) false flagged
      | false =>
          cases hnl0 : anyMatch nl (utf8DecodeReplace b0) with
          | true => rw [scanLoop_cons_nl hnl0]; exact ih (i + 1) true flagged
          | false =>
              cases hil0 : anyMatch il (utf8DecodeReplace b0) with
              | true => rw [scanLoop_cons_il hnl0 hil0]; exact ih (i + 1) false flagged
              | false =>
                  cases hsig0 : (blacklistHit b0 || hippoSearch (utf8DecodeReplace b0)) with
                  | true =>
                      rw [scanLoop_cons_sig hnl0 hil0 hsig0]
                      have h2 := ih (i + 1) false true
                      simp only [Bool.true_or] at h2
                      cases flagged <;> simp [evRec, h2]
                  | false =>
                      rw [scanLoop_cons_none hnl0 hil0 hsig0]
                      exact ih (i + 1) false flagged

/-! ### Further regex lemmas for the claims -/

theorem bool_eq_of_iff {a b : Bool} (h : a = true ↔ b = true) : a = b := by
  cases a <;> cases b <;> simp_all

theorem deriv_fail {c : Char} : RE.deriv .fail c = .fail := rfl

theorem rmatch_fail : ∀ s : List Char, RE.rmatch .fail s = false := by
  intro s
  induction s with
  | nil => rfl
  | cons c s ih =>
      have : RE.rmatch RE.fail (c :: s) = RE.rmatch (RE.deriv .fail c) s := rfl
      rw [this, deriv_fail, ih]

/-- If the derivative by the first character is the empty regex, no string
starting with that character matches. -/
theorem rmatch_cons_of_deriv_fail {r : RE} {c : Char}
    (h : r.deriv c = .fail) (s : List Char) : r.rmatch (c :: s) = false := by
  have step : RE.rmatch r (c :: s) = RE.rmatch (r.deriv c) s := rfl
  rw [step, h, rmatch_fail]

/-- An anchored pattern whose first-character derivative is empty rejects
every string starting with that character. -/
theorem search_cons_of_deriv_fail {p : Pat} {c : Char}
    (ha : p.anch = true) (h : p.body.deriv c = .fail) (s : List Char) :
    p.search (c :: s) = false := by
  rw [Pat.search, ha, if_pos rfl]
  exact rmatch_cons_of_deriv_fail h s

/-- Dropping a nullable leading factor does not change unanchored search. -/
theorem searchU_cons_nullable {r : RE} {L : List RE} (hr : Lang r [])
    (s : List Char) :
    (Pat.mk false (seqList (r :: L))).search s
      = (Pat.mk false (seqList L)).search s := by
  apply bool_eq_of_iff
  rw [search_unanch rfl, search_unanch rfl]
  constructor
  · rintro ⟨t, hts, hm⟩
    rcases lang_seqList_cons.mp hm with ⟨u, v, rfl, hu, hv⟩
    exact ⟨v, (List.suffix_append u v).trans hts, hv⟩
  · rintro ⟨t, hts, hm⟩
    exact ⟨t, hts, lang_seqList_cons.mpr ⟨[], t, rfl, hr, hm⟩⟩

/-- An `eps` factor in the middle of a concatenation list is invisible. -/
theorem lang_seqList_middle_eps (xs ys : List RE) :
    ∀ s : List Char,
      Lang (seqList (xs ++ RE.eps :: ys)) s ↔ Lang (seqList (xs ++ ys)) s := by
  induction xs with
  | nil =>
      intro s
      rw [List.nil_append, List.nil_append, lang_seqList_cons]
      constructor
      · rintro ⟨u, v, rfl, hu, hv⟩
        rw [lang_eps_iff] at hu
        subst hu
        simpa using hv
      · intro h
        exact ⟨[], s, rfl, Lang.eps, h⟩
  | cons x xs ih =>
      intro s
      rw [List.cons_append, List.cons_append, lang_seqList_cons, lang_seqList_cons]
      constructor
      · rintro ⟨u, v, rfl, hu, hv⟩
        exact ⟨u, v, rfl, hu, (ih v).mp hv⟩
      · rintro ⟨u, v, rfl, hu, hv⟩
        exact ⟨u, v, rfl, hu, (ih v).mpr hv⟩

/-- Pointwise equal bodies with equal anchoring give equal searches. -/
theorem search_congr {p q : Pat} (ha : p.anch = q.anch)
    (h : ∀ t, Lang p.body t ↔ Lang q.body t) (s : List Char) :
    p.search s = q.search s := by
  apply bool_eq_of_iff
  cases hq : q.anch with
  | true =>
      rw [search_anch (ha.trans hq), search_anch hq]
      exact h s
  | false =>
      rw [search_unanch (ha.trans hq), search_unanch hq]
      constructor
      · rintro ⟨t, hts, hm⟩; exact ⟨t, hts, (h t).mp hm⟩
      · rintro ⟨t, hts, hm⟩; exact ⟨t, hts, (h t).mpr hm⟩

/-- If some factor forces a segment occurrence, so does the concatenation. -/
theorem occursIn_of_lang_seqList_strong {w : List Char} {r : RE} :
    ∀ {l : List RE}, r ∈ l → (∀ t, Lang r t → OccursIn w t) →
      ∀ s, Lang (seqList l) s → OccursIn w s := by
  intro l
  induction l with
  | nil =>
      intro hmem
      exact absurd hmem (List.not_mem_nil _)
  | cons x l ih =>
      intro hmem hforce s hs
      rcases lang_seqList_cons.mp hs with ⟨u, v, rfl, hu, hv⟩
      rcases List.mem_cons.mp hmem with rfl | hmem'
      · exact occursIn_append_right (hforce u hu)
      · exact occursIn_append_left (ih hmem' hforce v hv)

/-- A list of blanks and tabs is in the language of `[ \t]*`. -/
theorem lang_star_hws {ws : List Char}
    (h : ∀ c ∈ ws, c = ' ' ∨ c = '\t') : Lang (.star hwsCls) ws := by
  induction ws with
  | nil => exact Lang.starNil
  | cons c ws ih =>
      have hc : c = ' ' ∨ c = '\t' := h c (List.mem_cons_self c ws)
      have hws : ∀ d ∈ ws, d = ' ' ∨ d = '\t' :=
        fun d hd => h d (List.mem_cons_of_mem c hd)
      have hcl : Lang hwsCls [c] := by
        refine Lang.cls ?_
        rcases hc with rfl | rfl <;> rfl
      have : Lang (.star hwsCls) ([c] ++ ws) := Lang.starCons hcl (ih hws)
      simpa using this

/-- Members of `[ \t]*`'s language can be prepended to members of `[ \t]*`'s
language-led concatenations. -/
theorem lang_star_hws_prepend {ws u : List Char}
    (h : ∀ c ∈ ws, c = ' ' ∨ c = '\t') (hu : Lang (.star hwsCls) u) :
    Lang (.star hwsCls) (ws ++ u) := by
  induction ws with
  | nil => simpa using hu
  | cons c ws ih =>
      have hc : c = ' ' ∨ c = '\t' := h c (List.mem_cons_self c ws)
      have hws : ∀ d ∈ ws, d = ' ' ∨ d = '\t' :=
        fun d hd => h d (List.mem_cons_of_mem c hd)
      have hcl : Lang hwsCls [c] := by
        refine Lang.cls ?_
        rcases hc with rfl | rfl <;> rfl
      have : Lang (.star hwsCls) ([c] ++ (ws ++ u)) := Lang.starCons hcl (ih hws)
      simpa using this

/-! ### Claim-side (specification-text) definitions -/

/-- The inline pragma pattern exactly as the spec/claim words it: comment
start token, then optional horizontal whitespace (spaces or tabs), then
`pragma:` optionally followed by one space, `allowlist` or `whitelist`,
a hyphen or space, `secret`, arbitrary trailing content, the comment end
token, optional trailing horizontal whitespace, end of line; search
semantics without a start anchor. -/
def inlineClaimPat (ct : RE × RE) : Pat :=
  { anch := false
  , body := seqList
      [ ct.1
      , .star hwsCls
      , RE.lit "pragma:"
      , .alt (RE.chr ' ') .eps
      , .seq (.alt (RE.lit "allow") (RE.lit "white")) (RE.lit "list")
      , spHyCls
      , RE.lit "secret"
      , .star dotCls
      , ct.2
      , .star hwsCls
      , dollarRE ] }

/-- The inline pragma pattern as the amended claim describes it: identical to
`inlineClaimPat` except that only spaces (no tabs) may separate the comment
start token from `pragma:`. -/
def inlineAmendedPat (ct : RE × RE) : Pat :=
  { anch := false
  , body := seqList
      [ ct.1
      , .star (RE.chr ' ')
      , RE.lit "pragma:"
      , .alt (RE.chr ' ') .eps
      , .seq (.alt (RE.lit "allow") (RE.lit "white")) (RE.lit "list")
      , spHyCls
      , RE.lit "secret"
      , .star dotCls
      , ct.2
      , .star hwsCls
      , dollarRE ] }

/-- The extension exactly as claim C3 words it: the substring after the last
`.` of the filename, empty when there is no `.` at all. -/
def extLastDot (filename : String) : String :=
  match lastIdx '.' filename.data with
  | none => ""
  | some d => String.mk (filename.data.drop (d + 1))

/-! ### Claim C2 -/

/-- C2, counterexample: for the first (hash) comment style of the table, the
line `"#\tpragma: allowlist secret\n"` contains exactly the components the
claim lists — comment token, horizontal whitespace (a tab), `pragma:` and
the rest — so the claim says the built regex matches it, but the program's
regex does not (it only admits spaces between the token and `pragma:`). -/
theorem C2_counterexample :
    (inlineClaimPat (_get_comment_tuples.getD 0 (.fail, .fail))).search
        ("#\tpragma: allowlist secret\n".data) = true
    ∧ (get_allowlist_regexes (_get_comment_tuples.getD 0 (.fail, .fail)) false).search
        ("#\tpragma: allowlist secret\n".data) = false := by
  constructor
  · decide
  · decide

/-- C2 (amended): for every comment style, the inline-mode pragma regex the
builder produces matches exactly the lines containing the comment-start
token, optional spaces (not tabs), `pragma:` optionally followed by one
space, `allowlist` or `whitelist`, `-secret` or ` secret`, arbitrary
trailing content, the comment-end token, optional trailing horizontal
whitespace and end of line — search semantics without a start anchor. -/
theorem C2_inline_regex_characterization (ct : RE × RE) (s : List Char) :
    (get_allowlist_regexes ct false).search s = (inlineAmendedPat ct).search s := by
  have h1 : (get_allowlist_regexes ct false).search s
      = (Pat.mk false (seqList
          [ ct.1
          , .star (RE.chr ' ')
          , RE.lit "pragma:"
          , .alt (RE.chr ' ') .eps
          , .seq (.alt (RE.lit "allow") (RE.lit "white")) (RE.lit "list")
          , .eps
          , spHyCls
          , RE.lit "secret"
          , .star dotCls
          , ct.2
          , .star hwsCls
          , dollarRE ])).search s :=
    searchU_cons_nullable Lang.starNil s
  rw [h1]
  refine @search_congr
    (Pat.mk false (seqList
      [ ct.1
      , .star (RE.chr ' ')
      , RE.lit "pragma:"
      , .alt (RE.chr ' ') .eps
      , .seq (.alt (RE.lit "allow") (RE.lit "white")) (RE.lit "list")
      , .eps
      , spHyCls
      , RE.lit "secret"
      , .star dotCls
      , ct.2
      , .star hwsCls
      , dollarRE ]))
    (inlineAmendedPat ct) rfl (fun t => ?_) s
  exact lang_seqList_middle_eps
    [ ct.1
    , .star (RE.chr ' ')
    , RE.lit "pragma:"
    , .alt (RE.chr ' ') .eps
    , .seq (.alt (RE.lit "allow") (RE.lit "white")) (RE.lit "list") ]
    [ spHyCls
    , RE.lit "secret"
    , .star dotCls
    , ct.2
    , .star hwsCls
    , dollarRE ] t

/-! ### Claim C3 -/

/-- C3, counterexample: for the filename `".py"` the claim's extraction rule
(substring after the last `.`) yields `"py"`, which the extension map knows
(index 0), so the claim predicts regex sequences of exactly one element; but
the program uses `os.path.splitext`, for which `".py"` has no extension, and
returns one pattern per comment style (five), not one. -/
theorem C3_counterexample :
    extLastDot ".py" = "py"
    ∧ _get_file_to_index_dict.lookup (extLastDot ".py") = some 0
    ∧ (_get_allowlist_regexes_for_file ".py").1.length = 5
    ∧ (_get_allowlist_regexes_for_file ".py").2.length = 5 := by
  exact ⟨by decide, by decide, by decide, by decide⟩

/-- C3 (amended): the resolver extracts the extension with
`os.path.splitext` semantics (the part after the last `.` of the final path
component, provided that dot does not belong to the component's leading run
of dots), looks it up case-sensitively, and resolves to exactly the single
mapped comment style when found and to every comment style otherwise; hence
singleton regex sequences for a recognized extension and one element per
known style for an unrecognized one.  The trailing conjuncts witness the
extraction convention and the case-sensitive lookup. -/
theorem C3_resolver_styles :
    (∀ (f : String) (i : Nat),
        _get_file_to_index_dict.lookup (extOf f) = some i →
        (_get_allowlist_regexes_for_file f).1
            = [get_allowlist_regexes (_get_comment_tuples.getD i (.fail, .fail)) false]
        ∧ (_get_allowlist_regexes_for_file f).2
            = [get_allowlist_regexes (_get_comment_tuples.getD i (.fail, .fail)) true])
    ∧ (∀ f : String,
        _get_file_to_index_dict.lookup (extOf f) = none →
        (_get_allowlist_regexes_for_file f).1.length = _get_comment_tuples.length
        ∧ (_get_allowlist_regexes_for_file f).2.length = _get_comment_tuples.length)
    ∧ extOf "a.py" = "py" ∧ extOf ".py" = "" ∧ extOf "a.tar.gz" = "gz"
    ∧ extOf "dir.d/c" = "" ∧ extOf "file." = "" ∧ extOf "noext" = ""
    ∧ extOf "a.PY" = "PY" ∧ _get_file_to_index_dict.lookup "PY" = none := by
  refine ⟨?_, ?_, by decide, by decide, by decide, by decide, by decide,
    by decide, by decide, by decide⟩
  · intro f i h
    constructor <;> simp [_get_allowlist_regexes_for_file, h]
  · intro f h
    constructor <;> simp [_get_allowlist_regexes_for_file, h]

/-- Witness for C3: the hypotheses of both quantified parts are satisfiable
at concrete filenames. -/
theorem C3_resolver_styles_witness :
    (_get_allowlist_regexes_for_file "a.py").1
        = [get_allowlist_regexes (_get_comment_tuples.getD 0 (.fail, .fail)) false]
    ∧ (_get_allowlist_regexes_for_file "notes.txt").1.length
        = _get_comment_tuples.length :=
  ⟨(C3_resolver_styles.1 "a.py" 0 (by decide)).1,
   (C3_resolver_styles.2.1 "notes.txt" (by decide)).1⟩

/-! ### Claim C4 -/

/-- Concrete comment tokens (matched by the corresponding regex fragments of
the comment style table), used to build canonical pragma lines. -/
def styleToks : List (String × String) :=
  [("#", ""), ("//", ""), ("/*", " */"), ("--", ""), ("<!--", " -->")]

/-- A canonical inline pragma line for a given token pair, spelling, and
`-`/` ` joiner. -/
def inlineLine (tok : String × String) (word joiner : String) : List Char :=
  (tok.1 ++ " pragma: " ++ word ++ joiner ++ "secret" ++ tok.2 ++ "\n").data

/-- A canonical nextline pragma line for a given token pair and joiners. -/
def nextlineLine (tok : String × String) (j1 j2 : String) : List Char :=
  (tok.1 ++ " pragma: allowlist" ++ j1 ++ "nextline" ++ j2 ++ "secret"
    ++ tok.2 ++ "\n").data

/-- C4: for every comment style, the inline regex accepts both spellings and
both joiners (first conjunct, canonical lines across all five styles); the
nextline regex accepts the `nextline` keyword joined by hyphen or space on
each side (second conjunct); every line the nextline regex accepts contains
`allowlist` — never only `whitelist` — and contains `nextline` (third
conjunct); and the nextline regex is anchored: no line starting with an
ordinary character (e.g. `x`) matches, whatever follows (fourth conjunct). -/
theorem C4_pragma_mode_asymmetry :
    ((List.zip _get_comment_tuples styleToks).all (fun p =>
        ["allowlist", "whitelist"].all (fun w =>
          ["-", " "].all (fun j =>
            (get_allowlist_regexes p.1 false).search (inlineLine p.2 w j))))) = true
    ∧ ((List.zip _get_comment_tuples styleToks).all (fun p =>
        ["-", " "].all (fun j1 =>
          ["-", " "].all (fun j2 =>
            (get_allowlist_regexes p.1 true).search (nextlineLine p.2 j1 j2))))) = true
    ∧ (∀ (ct : RE × RE) (s : List Char),
        (get_allowlist_regexes ct true).search s = true →
        OccursIn ("allowlist".data) s ∧ OccursIn ("nextline".data) s)
    ∧ (∀ ct ∈ _get_comment_tuples, ∀ s : List Char,
        (get_allowlist_regexes ct true).search ('x' :: s) = false) := by
  refine ⟨by decide, by decide, ?_, ?_⟩
  · intro ct s h
    have hl : Lang (get_allowlist_regexes ct true).body s := (search_anch rfl).mp h
    have hb : (get_allowlist_regexes ct true).body
        = seqList
          [ .star hwsCls
          , ct.1
          , .star (RE.chr ' ')
          , RE.lit "pragma:"
          , .alt (RE.chr ' ') .eps
          , RE.lit "allowlist"
          , .seq spHyCls (RE.lit "nextline")
          , spHyCls
          , RE.lit "secret"
          , .star dotCls
          , ct.2
          , .star hwsCls
          , dollarRE ] := rfl
    rw [hb] at hl
    constructor
    · refine occursIn_of_lang_seqList ?_ hl
      exact List.mem_cons_of_mem _ (List.mem_cons_of_mem _ (List.mem_cons_of_mem _
        (List.mem_cons_of_mem _ (List.mem_cons_of_mem _ (List.mem_cons_self _ _)))))
    · refine @occursIn_of_lang_seqList_strong ("nextline".data)
        (.seq spHyCls (RE.lit "nextline")) _ ?_ (fun t ht => ?_) s hl
      · exact List.mem_cons_of_mem _ (List.mem_cons_of_mem _ (List.mem_cons_of_mem _
          (List.mem_cons_of_mem _ (List.mem_cons_of_mem _ (List.mem_cons_of_mem _
            (List.mem_cons_self _ _))))))
      · rcases lang_seq_iff.mp ht with ⟨u, v, rfl, hu, hv⟩
        rw [lang_lit_iff] at hv
        subst hv
        exact ⟨u, [], by simp⟩
  · intro ct hmem s
    fin_cases hmem <;> refine search_cons_of_deriv_fail rfl ?_ s <;> rfl

/-- Witness for C4: the third and fourth conjuncts applied at a concrete
accepted line and style. -/
theorem C4_pragma_mode_asymmetry_witness :
    OccursIn ("allowlist".data) ("# pragma: allowlist-nextline-secret\n".data)
    ∧ (get_allowlist_regexes (RE.lit "#", RE.eps) true).search
        ('x' :: "# pragma: allowlist nextline secret\n".data) = false :=
  ⟨(C4_pragma_mode_asymmetry.2.2.1 (RE.lit "#", RE.eps)
      ("# pragma: allowlist-nextline-secret\n".data) (by decide)).1,
   C4_pragma_mode_asymmetry.2.2.2 (RE.lit "#", RE.eps)
      (List.mem_cons_self _ _) ("# pragma: allowlist nextline secret\n".data)⟩

/-! ### Claim C9 -/

/-- C9: although the nextline regex is anchored with `^`, its `[ \t]*` right
after the anchor permits any amount of leading blanks/tabs before the comment
token (first conjunct, for every style and line), and an indented next-line
pragma still suppresses the following line in a scan (second conjunct: the
suppressed marker line produces no flags for any such indentation). -/
theorem C9_indented_nextline_pragma :
    (∀ (ct : RE × RE) (ws s : List Char),
        (∀ c ∈ ws, c = ' ' ∨ c = '\t') →
        (get_allowlist_regexes ct true).search s = true →
        (get_allowlist_regexes ct true).search (ws ++ s) = true)
    ∧ (∀ wsB : List Nat, (∀ b ∈ wsB, b = 32 ∨ b = 9) →
        scanFlags "a.py"
          [ wsB ++ asciiBytes "# pragma: allowlist nextline secret\n"
          , asciiBytes "BEGIN RSA PRIVATE KEY\n" ] = []) := by
  have part1 : ∀ (ct : RE × RE) (ws s : List Char),
      (∀ c ∈ ws, c = ' ' ∨ c = '\t') →
      (get_allowlist_regexes ct true).search s = true →
      (get_allowlist_regexes ct true).search (ws ++ s) = true := by
    intro ct ws s hws h
    rw [search_anch rfl] at h
    rw [search_anch rfl]
    have hb : (get_allowlist_regexes ct true).body
        = seqList (RE.star hwsCls ::
          [ ct.1
          , .star (RE.chr ' ')
          , RE.lit "pragma:"
          , .alt (RE.chr ' ') .eps
          , RE.lit "allowlist"
          , .seq spHyCls (RE.lit "nextline")
          , spHyCls
          , RE.lit "secret"
          , .star dotCls
          , ct.2
          , .star hwsCls
          , dollarRE ]) := rfl
    rw [hb] at h
    rw [hb]
    rcases lang_seqList_cons.mp h with ⟨u, v, rfl, hu, hv⟩
    rw [← List.append_assoc]
    exact lang_seqList_cons.mpr ⟨ws ++ u, v, rfl, lang_star_hws_prepend hws hu, hv⟩
  refine ⟨part1, ?_⟩
  intro wsB hws
  have hbytes : ∀ b ∈ wsB ++ asciiBytes "# pragma: allowlist nextline secret\n",
      b ≤ 127 := by
    intro b hb
    rcases List.mem_append.mp hb with h1 | h2
    · rcases hws b h1 with rfl | rfl <;> omega
    · have hall : ∀ x ∈ asciiBytes "# pragma: allowlist nextline secret\n", x ≤ 127 := by
        decide
      exact hall b h2
  have hdec : utf8DecodeReplace (wsB ++ asciiBytes "# pragma: allowlist nextline secret\n")
      = wsB.map Char.ofNat ++ "# pragma: allowlist nextline secret\n".data := by
    rw [utf8_ascii hbytes, List.map_append]
    have : (asciiBytes "# pragma: allowlist nextline secret\n").map Char.ofNat
        = "# pragma: allowlist nextline secret\n".data := by decide
    rw [this]
  have hwchars : ∀ c ∈ wsB.map Char.ofNat, c = ' ' ∨ c = '\t' := by
    intro c hc
    rcases List.mem_map.mp hc with ⟨b, hb, rfl⟩
    rcases hws b hb with rfl | rfl
    · exact Or.inl rfl
    · exact Or.inr rfl
  have hsearch : anyMatch (_get_allowlist_regexes_for_file "a.py").2
      (utf8DecodeReplace (wsB ++ asciiBytes "# pragma: allowlist nextline secret\n"))
      = true := by
    rw [hdec]
    have hrs : (_get_allowlist_regexes_for_file "a.py").2
        = [get_allowlist_regexes (RE.lit "#", RE.eps) true] := rfl
    rw [hrs]
    have hg : (get_allowlist_regexes (RE.lit "#", RE.eps) true).search
        ("# pragma: allowlist nextline secret\n".data) = true := by decide
    have := part1 (RE.lit "#", RE.eps) (wsB.map Char.ofNat)
      ("# pragma: allowlist nextline secret\n".data) hwchars hg
    simp [anyMatch, this]
  show ((scanLoop (_get_allowlist_regexes_for_file "a.py").1
      (_get_allowlist_regexes_for_file "a.py").2 "a.py" 1 false false
      [ wsB ++ asciiBytes "# pragma: allowlist nextline secret\n"
      , asciiBytes "BEGIN RSA PRIVATE KEY\n" ]).1.filterMap evRec) = []
  rw [scanLoop_cons_nl hsearch, scanLoop_cons_skip]
  rfl

/-- Witness for C9: a tab-indented pragma line matches the nextline regex
and suppresses a following private-key line. -/
theorem C9_indented_nextline_pragma_witness :
    (get_allowlist_regexes (RE.lit "#", RE.eps) true).search
        ('\t' :: "# pragma: allowlist nextline secret\n".data) = true
    ∧ scanFlags "a.py"
        [ 9 :: asciiBytes "# pragma: allowlist nextline secret\n"
        , asciiBytes "BEGIN RSA PRIVATE KEY\n" ] = [] := by
  constructor
  · have := C9_indented_nextline_pragma.1 (RE.lit "#", RE.eps) ['\t']
      ("# pragma: allowlist nextline secret\n".data) (by decide) (by decide)
    simpa using this
  · have := C9_indented_nextline_pragma.2 [9] (by decide)
    simpa using this

/-- The skip state after line `k` is the step applied to the state at `k`. -/
theorem skipSt_succ {nl : List Pat} :
    ∀ (lines : List (List Nat)) (sk : Bool) (k : Nat) (b : List Nat),
      lines[k]? = some b →
      skipSt nl sk lines (k + 1) = stepSkip nl (skipSt nl sk lines k) b := by
  intro lines
  induction lines with
  | nil =>
      intro sk k b h
      simp at h
  | cons b0 rest ih =>
      intro sk k b h
      cases k with
      | zero =>
          rw [List.getElem?_cons_zero] at h
          injection h with hb
          subst hb
          simp [skipSt]
      | succ k =>
          rw [List.getElem?_cons_succ] at h
          show skipSt nl (stepSkip nl sk b0) rest (k + 1)
            = stepSkip nl (skipSt nl (stepSkip nl sk b0) rest k) b
          exact ih (stepSkip nl sk b0) k b h

/-! ### Claim C1 -/

/-- C1, counterexample: a single-line file whose line both contains the
`BEGIN RSA PRIVATE KEY` marker and matches a next-line allowlist pragma.
There is no preceding line and the inline regexes do not match, so the
claim says the line is flagged; the program does not flag it (the nextline
check precedes the signature check and consumes the line). -/
theorem C1_counterexample :
    blacklistHit
        (asciiBytes "# pragma: allowlist nextline secret BEGIN RSA PRIVATE KEY\n")
        = true
    ∧ anyMatch (_get_allowlist_regexes_for_file "x.py").1
        (utf8DecodeReplace
          (asciiBytes "# pragma: allowlist nextline secret BEGIN RSA PRIVATE KEY\n"))
        = false
    ∧ scanFlags "x.py"
        [asciiBytes "# pragma: allowlist nextline secret BEGIN RSA PRIVATE KEY\n"]
        = [] := by
  exact ⟨by decide, by decide, by decide⟩

/-- C1 (amended): every line whose raw bytes contain a blacklist marker is
flagged — its 1-based number and stripped decoded text are recorded —
unless (a) its decoded text matches an inline allowlist regex of the file,
(b) the scan reaches it in skipping state (set by the preceding line
matching a next-line regex while itself unskipped), or (c) its decoded text
itself matches a next-line allowlist regex. -/
theorem C1_marker_line_flagged (fname : String) (lines : List (List Nat))
    (k : Nat) (b : List Nat)
    (hget : lines[k]? = some b)
    (hbl : blacklistHit b = true)
    (hil : anyMatch (_get_allowlist_regexes_for_file fname).1
        (utf8DecodeReplace b) = false)
    (hnl : anyMatch (_get_allowlist_regexes_for_file fname).2
        (utf8DecodeReplace b) = false)
    (hskip : skipSt (_get_allowlist_regexes_for_file fname).2 false lines k = false) :
    (k + 1, pyStrip (utf8DecodeReplace b)) ∈ scanFlags fname lines := by
  have hsig : (blacklistHit b || hippoSearch (utf8DecodeReplace b)) = true := by
    rw [hbl]; rfl
  have hmem := @scanLoop_flags_mem (_get_allowlist_regexes_for_file fname).1
    (_get_allowlist_regexes_for_file fname).2 fname lines 1 false false k b
    hget hskip hnl hil hsig
  rw [Nat.add_comm 1 k] at hmem
  show (k + 1, pyStrip (utf8DecodeReplace b))
    ∈ ((scanLoop (_get_allowlist_regexes_for_file fname).1
        (_get_allowlist_regexes_for_file fname).2 fname 1 false false lines).1.filterMap
          evRec)
  exact List.mem_filterMap.mpr ⟨Ev.line (k + 1) (pyStrip (utf8DecodeReplace b)), hmem, rfl⟩

/-- Witness for C1: a one-line python file holding an RSA key header is
flagged as line 1. -/
theorem C1_marker_line_flagged_witness :
    (1, "BEGIN RSA PRIVATE KEY".data)
      ∈ scanFlags "x.py" [asciiBytes "BEGIN RSA PRIVATE KEY\n"] := by
  have h := C1_marker_line_flagged "x.py" [asciiBytes "BEGIN RSA PRIVATE KEY\n"]
    0 (asciiBytes "BEGIN RSA PRIVATE KEY\n")
    (by decide) (by decide) (by decide) (by decide) (by decide)
  have heq : pyStrip (utf8DecodeReplace (asciiBytes "BEGIN RSA PRIVATE KEY\n"))
      = "BEGIN RSA PRIVATE KEY".data := by decide
  rw [heq] at h
  exact h

/-! ### Claim C6 -/

/-- C6, counterexample: three lines, the first two both next-line pragmas,
the third an RSA key header.  Line 2's decoded text matches a next-line
allowlist regex (first conjunct), yet the scan does **not** transition to
skipping state on it — it was itself being skipped — so line 3 is signature
checked and flagged (second conjunct), contradicting the claim that a
nextline-matching line always moves the scan to skipping state. -/
theorem C6_counterexample :
    anyMatch (_get_allowlist_regexes_for_file "x.py").2
        (utf8DecodeReplace (asciiBytes "# pragma: allowlist nextline secret\n"))
        = true
    ∧ scanFlags "x.py"
        [ asciiBytes "# pragma: allowlist nextline secret\n"
        , asciiBytes "# pragma: allowlist nextline secret\n"
        , asciiBytes "BEGIN RSA PRIVATE KEY\n" ]
        = [(3, "BEGIN RSA PRIVATE KEY".data)] := by
  exact ⟨by decide, by decide⟩

/-- C6 (amended): a line whose decoded text matches a next-line allowlist
regex is never itself flagged, whatever its raw bytes contain; and when the
scan reaches it in non-skipping state it transitions to skipping state for
the following line. -/
theorem C6_nextline_pragma_line_exempt (fname : String) (lines : List (List Nat))
    (k : Nat) (b : List Nat)
    (hget : lines[k]? = some b)
    (hnl : anyMatch (_get_allowlist_regexes_for_file fname).2
        (utf8DecodeReplace b) = true) :
    (∀ t, (k + 1, t) ∉ scanFlags fname lines)
    ∧ (skipSt (_get_allowlist_regexes_for_file fname).2 false lines k = false →
        skipSt (_get_allowlist_regexes_for_file fname).2 false lines (k + 1) = true) := by
  constructor
  · intro t hmem
    have hmem' : Ev.line (k + 1) t
        ∈ ((scanLoop (_get_allowlist_regexes_for_file fname).1
            (_get_allowlist_regexes_for_file fname).2 fname 1 false false lines).1) := by
      rcases List.mem_filterMap.mp hmem with ⟨e, he, hc⟩
      cases e with
      | header _ => exact absurd hc (by simp [evRec])
      | line n t' =>
          have : n = k + 1 ∧ t' = t := by
            rw [evRec] at hc
            injection hc with hpair
            exact ⟨congrArg Prod.fst hpair, congrArg Prod.snd hpair⟩
          rcases this with ⟨rfl, rfl⟩
          exact he
    rcases @scanLoop_flags_src (_get_allowlist_regexes_for_file fname).1
        (_get_allowlist_regexes_for_file fname).2 fname lines 1 false false
        (k + 1) t hmem' with ⟨k', b', hget', hn, hskip', hnl', hil', hsig', ht'⟩
    have hk : k' = k := by omega
    subst hk
    rw [hget] at hget'
    injection hget' with hb
    subst hb
    rw [hnl] at hnl'
    exact absurd hnl' (by simp)
  · intro hsk
    rw [skipSt_succ lines false k b hget, hsk, stepSkip, hnl]
    rfl

/-- Witness for C6: a pragma line followed by a key line — line 1 is never
flagged and the state moves to skipping. -/
theorem C6_nextline_pragma_line_exempt_witness :
    (∀ t, (1, t) ∉ scanFlags "x.py"
        [ asciiBytes "# pragma: allowlist nextline secret\n"
        , asciiBytes "BEGIN EC PRIVATE KEY\n" ])
    ∧ (skipSt (_get_allowlist_regexes_for_file "x.py").2 false
        [ asciiBytes "# pragma: allowlist nextline secret\n"
        , asciiBytes "BEGIN EC PRIVATE KEY\n" ] 0 = false →
       skipSt (_get_allowlist_regexes_for_file "x.py").2 false
        [ asciiBytes "# pragma: allowlist nextline secret\n"
        , asciiBytes "BEGIN EC PRIVATE KEY\n" ] 1 = true) :=
  C6_nextline_pragma_line_exempt "x.py"
    [ asciiBytes "# pragma: allowlist nextline secret\n"
    , asciiBytes "BEGIN EC PRIVATE KEY\n" ] 0
    (asciiBytes "# pragma: allowlist nextline secret\n")
    (by decide) (by decide)

/-! ### Claim C5 -/

/-- A file's final `file_flagged` boolean is false exactly when its flagged
records are empty. -/
theorem scanFile_snd_iff {fname : String} {lines : List (List Nat)} :
    ((scanFile fname lines).2 = false ↔ scanFlags fname lines = []) := by
  have h2 := @scanLoop_snd_eq (_get_allowlist_regexes_for_file fname).1
    (_get_allowlist_regexes_for_file fname).2 fname lines 1 false false
  show ((scanLoop (_get_allowlist_regexes_for_file fname).1
      (_get_allowlist_regexes_for_file fname).2 fname 1 false false lines).2 = false
    ↔ (scanLoop (_get_allowlist_regexes_for_file fname).1
      (_get_allowlist_regexes_for_file fname).2 fname 1 false false lines).1.filterMap evRec
      = [])
  rw [h2]
  simp [List.isEmpty_iff]

/-- C5: the driver exits with status 0 iff no scanned file had any flagged
line, and the empty invocation scans nothing and exits 0. -/
theorem C5_exit_status (files : List (String × List (List Nat))) :
    (mainExit files = 0 ↔ ∀ f ∈ files, scanFlags f.1 f.2 = [])
    ∧ mainExit [] = 0 := by
  constructor
  · have hrun : ∀ fs : List (String × List (List Nat)),
        ((mainRun fs).2 = [] ↔ ∀ f ∈ fs, (scanFile f.1 f.2).2 = false) := by
      intro fs
      induction fs with
      | nil => simp [mainRun]
      | cons f rest ih =>
          cases f with
          | mk fn ls =>
              cases h2 : (scanFile fn ls).2 with
              | true => simp [mainRun, h2]
              | false => simp [mainRun, h2, ih]
    have hexit : mainExit files = 0 ↔ (mainRun files).2 = [] := by
      rw [mainExit, ← List.isEmpty_iff]
      cases he : (mainRun files).2.isEmpty <;> simp [he]
    rw [hexit, hrun]
    constructor
    · intro h f hf
      exact scanFile_snd_iff.mp (h f hf)
    · intro h f hf
      exact scanFile_snd_iff.mpr (h f hf)
  · rfl

/-! ### Claim C7 -/

/-- C7: (1) for every line reached unsuppressed, being flagged is equivalent
to the raw bytes containing a blacklist marker or the decoded text matching
the auxiliary `hippo` pattern — the blacklist test reads raw bytes, the
pragma and auxiliary tests the replacement-decoded text; (2) decoding
replaces invalid bytes with U+FFFD instead of failing; (3) a line whose
bytes are partly invalid UTF-8 still scans: its marker is found in the raw
bytes and its report text carries the replacement character. -/
theorem C7_decode_replacement_and_signature_sources :
    (∀ (fname : String) (lines : List (List Nat)) (k : Nat) (b : List Nat),
        lines[k]? = some b →
        skipSt (_get_allowlist_regexes_for_file fname).2 false lines k = false →
        anyMatch (_get_allowlist_regexes_for_file fname).2
            (utf8DecodeReplace b) = false →
        anyMatch (_get_allowlist_regexes_for_file fname).1
            (utf8DecodeReplace b) = false →
        ((k + 1, pyStrip (utf8DecodeReplace b)) ∈ scanFlags fname lines
          ↔ (blacklistHit b = true ∨ hippoSearch (utf8DecodeReplace b) = true)))
    ∧ utf8DecodeReplace (255 :: asciiBytes "A") = [replChar, 'A']
    ∧ scanFlags "x.py" [255 :: asciiBytes "BEGIN RSA PRIVATE KEY\n"]
        = [(1, replChar :: "BEGIN RSA PRIVATE KEY".data)] := by
  refine ⟨?_, by decide, by decide⟩
  intro fname lines k b hget hskip hnl hil
  constructor
  · intro hmem
    have hmem' : Ev.line (k + 1) (pyStrip (utf8DecodeReplace b))
        ∈ ((scanLoop (_get_allowlist_regexes_for_file fname).1
            (_get_allowlist_regexes_for_file fname).2 fname 1 false false lines).1) := by
      rcases List.mem_filterMap.mp hmem with ⟨e, he, hc⟩
      cases e with
      | header _ => exact absurd hc (by simp [evRec])
      | line n t' =>
          have : n = k + 1 ∧ t' = pyStrip (utf8DecodeReplace b) := by
            rw [evRec] at hc
            injection hc with hpair
            exact ⟨congrArg Prod.fst hpair, congrArg Prod.snd hpair⟩
          rcases this with ⟨rfl, rfl⟩
          exact he
    rcases @scanLoop_flags_src (_get_allowlist_regexes_for_file fname).1
        (_get_allowlist_regexes_for_file fname).2 fname lines 1 false false
        (k + 1) (pyStrip (utf8DecodeReplace b)) hmem' with
      ⟨k', b', hget', hn, hskip', hnl', hil', hsig', ht'⟩
    have hk : k' = k := by omega
    subst hk
    rw [hget] at hget'
    injection hget' with hb
    subst hb
    simpa using hsig'
  · intro hsig
    have hsig' : (blacklistHit b || hippoSearch (utf8DecodeReplace b)) = true := by
      rcases hsig with h | h <;> simp [h]
    have hmem := @scanLoop_flags_mem (_get_allowlist_regexes_for_file fname).1
      (_get_allowlist_regexes_for_file fname).2 fname lines 1 false false k b
      hget hskip hnl hil hsig'
    rw [Nat.add_comm 1 k] at hmem
    exact List.mem_filterMap.mpr
      ⟨Ev.line (k + 1) (pyStrip (utf8DecodeReplace b)), hmem, rfl⟩

/-- Witness for C7: the quantified part applied to a clean one-line file. -/
theorem C7_decode_replacement_and_signature_sources_witness :
    ((1, pyStrip (utf8DecodeReplace (asciiBytes "BEGIN DSA PRIVATE KEY\n")))
        ∈ scanFlags "x.py" [asciiBytes "BEGIN DSA PRIVATE KEY\n"]
      ↔ (blacklistHit (asciiBytes "BEGIN DSA PRIVATE KEY\n") = true
          ∨ hippoSearch (utf8DecodeReplace (asciiBytes "BEGIN DSA PRIVATE KEY\n")) = true)) :=
  C7_decode_replacement_and_signature_sources.1 "x.py"
    [asciiBytes "BEGIN DSA PRIVATE KEY\n"] 0 (asciiBytes "BEGIN DSA PRIVATE KEY\n")
    (by decide) (by decide) (by decide) (by decide)

/-! ### Claim C8 -/

/-- C8: whatever the filename (and hence whatever the resolved styles), a
non-suppressed line whose decoded text contains `hippo` in any casing is
flagged; in particular a `hippopotamus` line in `notes.txt` (unknown
extension) is flagged as line 1 and the run exits with status 1. -/
theorem C8_hippo_always_flagged :
    (∀ (fname : String) (lines : List (List Nat)) (k : Nat) (b : List Nat),
        lines[k]? = some b →
        skipSt (_get_allowlist_regexes_for_file fname).2 false lines k = false →
        anyMatch (_get_allowlist_regexes_for_file fname).2
            (utf8DecodeReplace b) = false →
        anyMatch (_get_allowlist_regexes_for_file fname).1
            (utf8DecodeReplace b) = false →
        hippoSearch (utf8DecodeReplace b) = true →
        (k + 1, pyStrip (utf8DecodeReplace b)) ∈ scanFlags fname lines)
    ∧ scanFlags "notes.txt" [asciiBytes "see the hippopotamus\n"]
        = [(1, "see the hippopotamus".data)]
    ∧ mainExit [("notes.txt", [asciiBytes "see the hippopotamus\n"])] = 1 := by
  refine ⟨?_, by decide, by decide⟩
  intro fname lines k b hget hskip hnl hil hhip
  have hsig : (blacklistHit b || hippoSearch (utf8DecodeReplace b)) = true := by
    rw [hhip]; simp
  have hmem := @scanLoop_flags_mem (_get_allowlist_regexes_for_file fname).1
    (_get_allowlist_regexes_for_file fname).2 fname lines 1 false false k b
    hget hskip hnl hil hsig
  rw [Nat.add_comm 1 k] at hmem
  exact List.mem_filterMap.mpr
    ⟨Ev.line (k + 1) (pyStrip (utf8DecodeReplace b)), hmem, rfl⟩

/-- Witness for C8: the quantified part at the `notes.txt` example. -/
theorem C8_hippo_always_flagged_witness :
    (1, pyStrip (utf8DecodeReplace (asciiBytes "see the hippopotamus\n")))
      ∈ scanFlags "notes.txt" [asciiBytes "see the hippopotamus\n"] :=
  C8_hippo_always_flagged.1 "notes.txt" [asciiBytes "see the hippopotamus\n"]
    0 (asciiBytes "see the hippopotamus\n")
    (by decide) (by decide) (by decide) (by decide) (by decide)

/-! ### Claim C10 -/

/-- Line records and line numbers of the event list agree. -/
theorem map_fst_filterMap_evRec :
    ∀ l : List Ev, (l.filterMap evRec).map Prod.fst = l.filterMap evNum := by
  intro l
  induction l with
  | nil => rfl
  | cons e l ih => cases e <;> simp [evRec, evNum, ih]

/-- C10: for every scanned file the header event is emitted at most once,
the driver appends the filename to `flagged_files` at most once, and the
flagged line numbers are strictly increasing. -/
theorem C10_report_shape (fname : String) (lines : List (List Nat)) :
    ((scanFile fname lines).1.countP isHeader) ≤ 1
    ∧ (mainRun [(fname, lines)]).2.length ≤ 1
    ∧ (scanFlags fname lines).Pairwise (fun a b => a.1 < b.1) := by
  refine ⟨?_, ?_, ?_⟩
  · have h := @scanLoop_header_le_one (_get_allowlist_regexes_for_file fname).1
      (_get_allowlist_regexes_for_file fname).2 fname lines 1 false false
    simpa using h
  · show ((if (scanFile fname lines).2 then [fname] else []) ++ (mainRun []).2).length ≤ 1
    cases (scanFile fname lines).2 <;> simp [mainRun]
  · have h := (@scanLoop_nums (_get_allowlist_regexes_for_file fname).1
      (_get_allowlist_regexes_for_file fname).2 fname lines 1 false false).1
    rw [← map_fst_filterMap_evRec] at h
    rw [List.pairwise_map] at h
    exact h

/-- Witness for C5: a clean one-line file exits 0 (via the equivalence), and
the empty invocation exits 0. -/
theorem C5_exit_status_witness :
    mainExit [("a.py", [asciiBytes "x = 1\n"])] = 0 ∧ mainExit [] = 0 :=
  ⟨(C5_exit_status [("a.py", [asciiBytes "x = 1\n"])]).1.mpr (by decide),
   (C5_exit_status []).2⟩

/-- Witness for C10: the shape properties at a concrete two-marker file. -/
theorem C10_report_shape_witness :
    ((scanFile "x.py"
        [ asciiBytes "BEGIN RSA PRIVATE KEY\n"
        , asciiBytes "BEGIN DSA PRIVATE KEY\n" ]).1.countP isHeader) ≤ 1
    ∧ (scanFlags "x.py"
        [ asciiBytes "BEGIN RSA PRIVATE KEY\n"
        , asciiBytes "BEGIN DSA PRIVATE KEY\n" ]).Pairwise (fun a b => a.1 < b.1) :=
  ⟨(C10_report_shape "x.py"
      [ asciiBytes "BEGIN RSA PRIVATE KEY\n"
      , asciiBytes "BEGIN DSA PRIVATE KEY\n" ]).1,
   (C10_report_shape "x.py"
      [ asciiBytes "BEGIN RSA PRIVATE KEY\n"
      , asciiBytes "BEGIN DSA PRIVATE KEY\n" ]).2.2⟩
